import Mathlib

/-!
# The dictionary of `speller` (`dictionary.c`)

A shallow embedding of the hash table of `src/dictionary/dictionary.c`:
the hash function, `check`, `load`, `size`, `unload` and `unload_bucket`,
followed by the properties proved about them.

Conventions of the embedding.

* A C string is the list of the numeric values of its characters, without
  the terminating NUL, each taken as an `unsigned char` (0..255).  The
  library routines `tolower` and `strcasecmp` are those of the "C" locale.
* `char` is signed (x86-64), so in `hash` the bytes 128..255 reach `tolower`
  as the values -128..-1; `strcasecmp` compares unsigned characters.
* `unsigned long` is 64 bits wide and `unsigned int` 32 bits wide (LP64);
  every arithmetic step on them is reduced modulo `2 ^ 64`, `2 ^ 32`.
* A chain of `node`s linked through `next` is the list of its nodes, head
  first; every node carries the address `malloc` returned for it.
* The process-wide variables `table` and `word_count`, together with the
  state of the allocator, are passed explicitly as a `State`.
-/

namespace Speller

/-- A C string: the values of its characters up to, not including, the NUL. -/
abbrev Word := List Nat

/-- The characters of a Lean string literal as a C string. -/
def str (s : String) : Word := s.toList.map Char.toNat

/-- Modelled from the spec: the constant `LENGTH` of `dictionary.h`, a header
that is not among the sources; the spec gives the maximum word length as 45. -/
def LENGTH : Nat := 45

/-- The number of buckets: `const unsigned int N = 28;`. -/
def N : Nat := 28

/-- One more than the largest `unsigned long`. -/
def ULONG_RANGE : Nat := 2 ^ 64

/-- One more than the largest `unsigned int`. -/
def UINT_RANGE : Nat := 2 ^ 32

/-- One more than the largest `int`: the index `i` of the loop of `hash` is an
`int`, so `hash` has defined behaviour on words shorter than this. -/
def INT_RANGE : Nat := 2 ^ 31

/-- The library routine `tolower` in the "C" locale: `'A'..'Z'` (65..90) go to
`'a'..'z'`, every other value is returned as it is. -/
def tolower (c : Nat) : Nat :=
  if 65 ≤ c ∧ c ≤ 90 then c + 32 else c

/-- The library routine `strcasecmp`: the two strings are compared character
by character after `tolower`; the result is the difference at the first
position where they differ, the terminating NUL (value 0) included. -/
def strcasecmp : Word → Word → Int
  | [], [] => 0
  | [], b :: _ => 0 - (tolower b : Int)
  | a :: _, [] => (tolower a : Int) - 0
  | a :: s, b :: t =>
    if tolower a = tolower b then strcasecmp s t
    else (tolower a : Int) - (tolower b : Int)

/-- The `char` `word[i]` as the `int` that `hash` passes to `tolower`: `char`
is signed, so the bytes 128..255 are the values -128..-1. -/
def char_value (c : Nat) : Int :=
  if c < 128 then (c : Int) else (c : Int) - 256

/-- The library routine `tolower` on the `int` arguments `hash` passes to it.
The value -1 is `EOF`, and `tolower(EOF)` is `EOF`.  The values -128..-2 are
no valid arguments in ISO C; the C library (glibc) returns for them the same
character as an `unsigned char`, that is `v + 256`.  Every other value is
mapped as by `tolower` above. -/
def tolower_int (v : Int) : Int :=
  if v = -1 then -1
  else if v < 0 then v + 256
  else (tolower v.toNat : Int)

/-- The conversion of an `int` to `unsigned long`. -/
def to_ulong (v : Int) : Nat :=
  (v % (ULONG_RANGE : Int)).toNat

/-- What `sum += tolower(word[i])` adds to `sum` for the character `c`: the
`int` that `tolower` returns, converted to `unsigned long`. -/
def hash_term (c : Nat) : Nat :=
  to_ulong (tolower_int (char_value c))

/-- The loop of `hash`: `sum += tolower(word[i])` for every character in turn,
`sum` being an `unsigned long`. -/
def hash_loop : Nat → Word → Nat
  | sum, [] => sum
  | sum, c :: rest => hash_loop ((sum + hash_term c) % ULONG_RANGE) rest

/-- The function `hash`: `sum` starts at 0 and the result is `sum % N`. -/
def hash (word : Word) : Nat :=
  hash_loop 0 word % N

/-! ### Words that differ in letter case only -/

/-- The other case of an ASCII letter; any other value is left alone. -/
def swapcase (c : Nat) : Nat :=
  if 65 ≤ c ∧ c ≤ 90 then c + 32
  else if 97 ≤ c ∧ c ≤ 122 then c - 32
  else c

/-- The test `equalUpToCase w v`: `v` is `w` with the case of some of its ASCII
letters changed (same length, and at every position the same character or the same
letter in the other case). -/
def equalUpToCase : Word → Word → Bool
  | [], [] => true
  | a :: s, b :: t => (b == a || b == swapcase a) && equalUpToCase s t
  | _, _ => false

/-- A string of ASCII characters: every value is in 1..127.  These are the
words on which `tolower(word[i])` in `hash` is defined whatever the
signedness of `char`. -/
def isAscii (w : Word) : Prop := ∀ c ∈ w, 0 < c ∧ c < 128

instance (w : Word) : Decidable (isAscii w) := by
  unfold isAscii; infer_instance

/-! ### The table and the allocator -/

/-- A `node` of a chain.  `word` is the array `word[LENGTH + 1]` (the string it
holds), `addr` the address of the node itself, as returned by `malloc`.  The
pointer `next` is not a field: a chain is the list of its nodes, head first,
so the `next` of a node is the rest of the list and `NULL` the empty list. -/
structure node where
  addr : Nat
  word : Word
deriving DecidableEq

/-- The allocator behind `malloc` and `free`.  `brk` is the address of the
block handed out last (addresses count up from 1, 0 being `NULL`), `avail`
the number of blocks `malloc` can still hand out before it returns `NULL`,
`freed` the addresses passed to `free` so far, oldest first. -/
structure Heap where
  brk : Nat
  avail : Nat
  freed : List Nat
deriving DecidableEq

/-- The process-wide variables of `dictionary.c` (`table`, `word_count`) and
the allocator. -/
structure State where
  table : List (List node)
  word_count : Nat
  heap : Heap
deriving DecidableEq

/-- The state at program start: the `N` bucket heads are `NULL` and
`word_count` is 0 (static storage is zero-initialised); nothing has been
allocated, and `avail` blocks can be. -/
def initial (avail : Nat) : State :=
  { table := List.replicate N [], word_count := 0,
    heap := { brk := 0, avail := avail, freed := [] } }

/-- The library routine `malloc(sizeof(node))`: `none` is `NULL` (out of
memory), otherwise a fresh address and the allocator after the call. -/
def malloc (h : Heap) : Option (Nat × Heap) :=
  if h.avail = 0 then none
  else some (h.brk + 1, { h with brk := h.brk + 1, avail := h.avail - 1 })

/-- The library routine `free(p)`: the block is recorded as freed.  Freeing a
block a second time is undefined behaviour (`none`). -/
def free (h : Heap) (p : Nat) : Option Heap :=
  if p ∈ h.freed then none
  else some { h with freed := h.freed ++ [p] }

/-! ### The functions of `dictionary.c` -/

/-- The loop of `check` over one chain: `true` at the first node whose word
compares equal under `strcasecmp`, `false` when the chain is exhausted.
Reading a node that has been freed is undefined behaviour (`none`). -/
def check_loop (freed : List Nat) (word : Word) : List node → Option Bool
  | [] => some false
  | ptr :: next =>
    if ptr.addr ∈ freed then none
    else if strcasecmp word ptr.word = 0 then some true
    else check_loop freed word next

/-- The function `check`: the chain scanned is `table[hash(word)]`. -/
def check (s : State) (word : Word) : Option Bool :=
  check_loop s.heap.freed word (s.table.getD (hash word) [])

/-- Lines 71 to 74 of `load`, for the node at `p` that `malloc` returned:
`strcpy(n->word, word)`, `n->next = table[hash(word)]`,
`table[hash(word)] = n`, `word_count++` (an `unsigned int`). -/
def link (s : State) (heap : Heap) (p : Nat) (word : Word) : State :=
  { table := s.table.set (hash word)
      ({ addr := p, word := word } :: s.table.getD (hash word) []),
    word_count := (s.word_count + 1) % UINT_RANGE,
    heap := heap }

/-- The `while` loop of `load` over the tokens that `fscanf(file, "%s", word)`
reads in turn.  The result is the value `load` returns and the state it
leaves, or `none` for undefined behaviour: a token longer than `LENGTH`
overruns the buffer `word[LENGTH + 1]`.  When `malloc` returns `NULL` the loop
is left with `false`; at end of file with `true`. -/
def load_loop : List Word → State → Option (Bool × State)
  | [], s => some (true, s)
  | word :: rest, s =>
    if LENGTH < word.length then none
    else
      match malloc s.heap with
      | none => some (false, s)
      | some (p, heap) => load_loop rest (link s heap p word)

/-- The function `load`.  The argument is what `fopen` and `fscanf` make of
the dictionary file: `none` when it cannot be opened, otherwise its sequence
of whitespace-delimited tokens. -/
def load (dictionary : Option (List Word)) (s : State) : Option (Bool × State) :=
  match dictionary with
  | none => some (false, s)
  | some tokens => load_loop tokens s

/-- The function `size`. -/
def size (s : State) : Nat :=
  s.word_count

/-- The function `unload_bucket` on the chain that starts at `ptr`: nothing
for `NULL`; `free(ptr)` when `ptr->next == NULL`; otherwise the call
`unload_bucket(ptr->next)` and nothing else.  Reading `ptr->next` of a node
that has been freed is undefined behaviour (`none`). -/
def unload_bucket (h : Heap) : List node → Option Heap
  | [] => some h
  | ptr :: next =>
    if ptr.addr ∈ h.freed then none
    else
      match next with
      | [] => free h ptr.addr
      | _ :: _ => unload_bucket h next

/-- The `for` loop of `unload`: `unload_bucket(table[i])` for the indices `i`
of the list in turn. -/
def unload_loop (table : List (List node)) : List Nat → Heap → Option Heap
  | [], h => some h
  | i :: rest, h =>
    match unload_bucket h (table.getD i []) with
    | none => none
    | some h1 => unload_loop table rest h1

/-- The function `unload`: the loop runs over `i = 0, ..., N - 1`, and `true`
is returned.  Neither `table` nor `word_count` is assigned. -/
def unload (s : State) : Option (Bool × State) :=
  match unload_loop s.table (List.range N) s.heap with
  | none => none
  | some h => some (true, { s with heap := h })

/-! ### Vocabulary of the statements -/

/-- Every entry of the table, bucket 0 first. -/
def entries (s : State) : List node :=
  s.table.flatten

/-- The table has its `N` bucket heads, `word_count` is an `unsigned int`, and
only blocks that were allocated have been freed. -/
def wellFormed (s : State) : Prop :=
  s.table.length = N ∧ s.word_count < UINT_RANGE ∧ ∀ p ∈ s.heap.freed, p ≤ s.heap.brk

instance (s : State) : Decidable (wellFormed s) := by
  unfold wellFormed; infer_instance

/-- The address of the last node of a chain, if the chain has a node. -/
def last_addr (chain : List node) : List Nat :=
  match chain.getLast? with
  | none => []
  | some n => [n.addr]

/-- The addresses of the last nodes of the chains `table[i]`, for the indices
`i` of the list in turn. -/
def last_addrs (table : List (List node)) : List Nat → List Nat
  | [] => []
  | i :: rest => last_addr (table.getD i []) ++ last_addrs table rest

/-- No node of the `N` chains has been freed, and no two chains share a node
address: the states in which `unload` reads no freed memory. -/
def intact (s : State) : Prop :=
  (∀ i < N, ∀ n ∈ s.table.getD i [], n.addr ∉ s.heap.freed) ∧
  (∀ i < N, ∀ j < N, ∀ n ∈ s.table.getD i [], ∀ m ∈ s.table.getD j [],
    n.addr = m.addr → i = j)

instance (s : State) : Decidable (intact s) := by
  unfold intact; infer_instance

/-- The nodes `load` creates for the tokens `L`, in the order of the tokens,
when the last block allocated before was at `brk`. -/
def fresh_nodes : Nat → List Word → List node
  | _, [] => []
  | brk, w :: rest => { addr := brk + 1, word := w } :: fresh_nodes (brk + 1) rest

/-- The nodes of `ns` that belong in bucket `i`, the latest first. -/
def bucket_of (i : Nat) (ns : List node) : List node :=
  (ns.filter (fun n => hash n.word == i)).reverse

/-- The states of the program after any number of calls of `load` since
program start, whatever each call returned (true, or false because the
source could not be opened or `malloc` failed). -/
inductive Reachable : State → Prop
  | start (avail : Nat) : Reachable (initial avail)
  | step (s : State) (dictionary : Option (List Word)) (b : Bool) (s1 : State) :
      Reachable s → load dictionary s = some (b, s1) → Reachable s1

/-- What holds of the table between two calls of `load`: the `N` heads are
there; every node is in the bucket of its word, holds a word that fits its
array, and has an address that was allocated and that no other bucket
holds; the count is the number of nodes as an `unsigned int`; nothing has
been freed. -/
structure Inv (s : State) : Prop where
  heads : s.table.length = N
  placed : ∀ i, ∀ n ∈ s.table.getD i [], hash n.word = i
  fits : ∀ i, ∀ n ∈ s.table.getD i [], n.word.length ≤ LENGTH
  allocated : ∀ i, ∀ n ∈ s.table.getD i [], n.addr ≤ s.heap.brk
  apart : ∀ i j, ∀ n ∈ s.table.getD i [], ∀ m ∈ s.table.getD j [], n.addr = m.addr → i = j
  count : s.word_count = (entries s).length % UINT_RANGE
  unfreed : s.heap.freed = []

/-! ## Lemmas on `tolower` and `hash` -/

theorem tolower_swapcase (c : Nat) : tolower (swapcase c) = tolower c := by
  unfold tolower swapcase
  split_ifs <;> omega

theorem map_tolower_of_equalUpToCase :
    ∀ (w v : Word), equalUpToCase w v = true → v.map tolower = w.map tolower
  | [], [], _ => rfl
  | [], _ :: _, h => by simp [equalUpToCase] at h
  | _ :: _, [], h => by simp [equalUpToCase] at h
  | a :: s, b :: t, h => by
    simp only [equalUpToCase, Bool.and_eq_true, Bool.or_eq_true, beq_iff_eq] at h
    have ih := map_tolower_of_equalUpToCase s t h.2
    rcases h.1 with h1 | h1
    · simp [h1, ih]
    · simp [h1, ih, tolower_swapcase]

theorem to_ulong_natCast (n : Nat) (h : n < ULONG_RANGE) : to_ulong (n : Int) = n := by
  unfold to_ulong ULONG_RANGE at *
  omega

/-- Except for the byte 255, `hash` adds the lowercased character itself. -/
theorem hash_term_eq (c : Nat) (h : c < 255) : hash_term c = tolower c := by
  have ht : tolower c < ULONG_RANGE := by
    unfold tolower ULONG_RANGE
    split_ifs <;> omega
  unfold hash_term
  by_cases hc : c < 128
  · have h1 : tolower_int (char_value c) = (tolower c : Int) := by
      unfold tolower_int char_value
      rw [if_pos hc, if_neg (by omega), if_neg (by omega), Int.toNat_ofNat]
    rw [h1, to_ulong_natCast _ ht]
  · have h1 : tolower_int (char_value c) = (tolower c : Int) := by
      have h2 : tolower c = c := by
        unfold tolower
        rw [if_neg (by omega)]
      unfold tolower_int char_value
      rw [if_neg hc, if_neg (by omega), if_pos (by omega), h2]
      omega
    rw [h1, to_ulong_natCast _ ht]

/-- For the byte 255, the `char` -1, `hash` adds `(unsigned long) -1`. -/
theorem hash_term_eof : hash_term 255 = ULONG_RANGE - 1 := by
  decide

theorem hash_term_congr (a b : Nat) (h : tolower a = tolower b) :
    hash_term a = hash_term b := by
  by_cases hab : a = b
  · rw [hab]
  · have hlt : a < 128 ∧ b < 128 := by
      unfold tolower at h
      split_ifs at h <;> omega
    rw [hash_term_eq a (by omega), hash_term_eq b (by omega), h]

theorem hash_loop_congr :
    ∀ (w v : Word) (sum : Nat), v.map tolower = w.map tolower →
      hash_loop sum v = hash_loop sum w
  | [], [], _, _ => rfl
  | [], _ :: _, _, h => by simp at h
  | _ :: _, [], _, h => by simp at h
  | a :: s, b :: t, sum, h => by
    simp only [List.map_cons, List.cons.injEq] at h
    simp only [hash_loop, hash_term_congr b a h.1]
    exact hash_loop_congr s t _ h.2

theorem hash_congr (w v : Word) (h : v.map tolower = w.map tolower) :
    hash v = hash w := by
  unfold hash
  rw [hash_loop_congr w v 0 h]

theorem hash_lt (w : Word) : hash w < N := by
  unfold hash N
  exact Nat.mod_lt _ (by decide)

theorem tolower_le (c : Nat) (h : c < 128) : tolower c < 128 := by
  unfold tolower
  split_ifs <;> omega

/-- On a word without the byte 255 the accumulator of `hash` never wraps
while the exact sum stays in range. -/
theorem hash_loop_exact :
    ∀ (w : Word) (sum : Nat), (∀ c ∈ w, c < 255) →
      sum + (w.map tolower).sum < ULONG_RANGE →
      hash_loop sum w = sum + (w.map tolower).sum
  | [], sum, _, _ => by simp [hash_loop]
  | c :: rest, sum, hc, h => by
    simp only [List.map_cons, List.sum_cons] at h
    have h1 : (sum + tolower c) % ULONG_RANGE = sum + tolower c :=
      Nat.mod_eq_of_lt (by omega)
    simp only [hash_loop, hash_term_eq c (hc c (List.mem_cons_self _ _)), h1,
      List.map_cons, List.sum_cons]
    rw [hash_loop_exact rest (sum + tolower c)
      (fun d hd => hc d (List.mem_cons_of_mem _ hd)) (by omega)]
    omega

theorem sum_tolower_le :
    ∀ (w : Word), (∀ c ∈ w, c < 255) → (w.map tolower).sum ≤ 254 * w.length
  | [], _ => by simp
  | c :: rest, h => by
    have hc : c < 255 := h c (List.mem_cons_self _ _)
    have ih := sum_tolower_le rest (fun d hd => h d (List.mem_cons_of_mem _ hd))
    have : tolower c ≤ 254 := by
      unfold tolower
      split_ifs <;> omega
    simp only [List.map_cons, List.sum_cons, List.length_cons]
    omega

theorem isAscii_lt (w : Word) (h : isAscii w) : ∀ c ∈ w, c < 255 :=
  fun c hc => Nat.lt_trans (h c hc).2 (by decide)

/-! ## Lemmas on `strcasecmp` -/

theorem equalUpToCase_of_map_tolower :
    ∀ (w v : Word), v.map tolower = w.map tolower → equalUpToCase w v = true
  | [], [], _ => rfl
  | [], _ :: _, h => by simp at h
  | _ :: _, [], h => by simp at h
  | a :: s, b :: t, h => by
    simp only [List.map_cons, List.cons.injEq] at h
    simp only [equalUpToCase, Bool.and_eq_true, Bool.or_eq_true, beq_iff_eq]
    refine ⟨?_, equalUpToCase_of_map_tolower s t h.2⟩
    have h1 := h.1
    unfold tolower at h1
    unfold swapcase
    split_ifs at h1 ⊢ <;> omega

theorem strcasecmp_of_map_tolower :
    ∀ (v w : Word), v.map tolower = w.map tolower → strcasecmp v w = 0
  | [], [], _ => rfl
  | [], _ :: _, h => by simp at h
  | _ :: _, [], h => by simp at h
  | a :: s, b :: t, h => by
    simp only [List.map_cons, List.cons.injEq] at h
    simp only [strcasecmp, h.1, if_true]
    exact strcasecmp_of_map_tolower s t h.2

theorem tolower_pos (c : Nat) (h : 0 < c) : 0 < tolower c := by
  unfold tolower
  split_ifs <;> omega

theorem map_tolower_of_strcasecmp :
    ∀ (v w : Word), 0 ∉ v → 0 ∉ w → strcasecmp v w = 0 → v.map tolower = w.map tolower
  | [], [], _, _, _ => rfl
  | [], b :: _, _, hw, h => by
    have hb : 0 < b := Nat.pos_of_ne_zero (fun e => hw (e ▸ List.mem_cons_self _ _))
    have := tolower_pos b hb
    simp only [strcasecmp] at h
    omega
  | a :: _, [], hv, _, h => by
    have ha : 0 < a := Nat.pos_of_ne_zero (fun e => hv (e ▸ List.mem_cons_self _ _))
    have := tolower_pos a ha
    simp only [strcasecmp] at h
    omega
  | a :: s, b :: t, hv, hw, h => by
    simp only [strcasecmp] at h
    by_cases hab : tolower a = tolower b
    · simp only [hab, if_true] at h
      have ih := map_tolower_of_strcasecmp s t
        (fun m => hv (List.mem_cons_of_mem _ m)) (fun m => hw (List.mem_cons_of_mem _ m)) h
      simp [hab, ih]
    · simp only [hab, if_false] at h
      omega

/-! ## Lemmas on `check` -/

theorem check_loop_found (freed : List Nat) (word : Word) :
    ∀ (front back : List node), (∀ n ∈ front, n.addr ∉ freed) →
      (∃ n ∈ front, strcasecmp word n.word = 0) →
      check_loop freed word (front ++ back) = some true
  | [], _, _, h => by simp at h
  | n :: front, back, hlive, h => by
    have hn : n.addr ∉ freed := hlive n (List.mem_cons_self _ _)
    simp only [List.cons_append, check_loop, hn, if_false]
    by_cases hz : strcasecmp word n.word = 0
    · simp [hz]
    · simp only [hz, if_false]
      apply check_loop_found freed word front back
        (fun m hm => hlive m (List.mem_cons_of_mem _ hm))
      obtain ⟨m, hm, hm0⟩ := h
      rcases List.mem_cons.1 hm with e | hm1
      · exact absurd (e ▸ hm0) hz
      · exact ⟨m, hm1, hm0⟩

theorem check_loop_absent (freed : List Nat) (word : Word) :
    ∀ (chain : List node), (∀ n ∈ chain, n.addr ∉ freed) →
      (∀ n ∈ chain, strcasecmp word n.word ≠ 0) →
      check_loop freed word chain = some false
  | [], _, _ => rfl
  | n :: chain, hlive, h => by
    have hn : n.addr ∉ freed := hlive n (List.mem_cons_self _ _)
    have hz : strcasecmp word n.word ≠ 0 := h n (List.mem_cons_self _ _)
    simp only [check_loop, hn, hz, if_false]
    exact check_loop_absent freed word chain
      (fun m hm => hlive m (List.mem_cons_of_mem _ hm))
      (fun m hm => h m (List.mem_cons_of_mem _ hm))

/-! ## Lemmas on `load` -/

theorem getD_set (l : List (List node)) (h i : Nat) (x : List node) :
    (l.set h x).getD i [] = if h = i ∧ h < l.length then x else l.getD i [] := by
  simp only [List.getD_eq_getElem?_getD, List.getElem?_set]
  by_cases e : h = i
  · subst e
    by_cases hl : h < l.length
    · simp [hl]
    · simp [hl, List.getElem?_eq_none (Nat.le_of_not_lt hl)]
  · simp [e]

theorem getD_replicate_nil (n i : Nat) :
    (List.replicate n ([] : List node)).getD i [] = [] := by
  simp only [List.getD_eq_getElem?_getD, List.getElem?_replicate]
  split_ifs <;> rfl

theorem bucket_of_cons (i : Nat) (n : node) (ns : List node) :
    bucket_of i (n :: ns) = bucket_of i ns ++ (if hash n.word = i then [n] else []) := by
  unfold bucket_of
  by_cases h : hash n.word = i
  · simp [List.filter_cons, h]
  · simp [List.filter_cons, h]

theorem mem_bucket_of (i : Nat) (n : node) (ns : List node) :
    n ∈ bucket_of i ns ↔ n ∈ ns ∧ hash n.word = i := by
  simp [bucket_of, List.mem_filter]

theorem fresh_nodes_addr :
    ∀ (L : List Word) (brk : Nat), ∀ n ∈ fresh_nodes brk L, brk < n.addr
  | [], _, n, h => by simp [fresh_nodes] at h
  | w :: rest, brk, n, h => by
    simp only [fresh_nodes, List.mem_cons] at h
    rcases h with e | h
    · subst e; exact Nat.lt_succ_self brk
    · exact Nat.lt_trans (Nat.lt_succ_self brk) (fresh_nodes_addr rest (brk + 1) n h)

theorem fresh_nodes_words :
    ∀ (L : List Word) (brk : Nat), (fresh_nodes brk L).map node.word = L
  | [], _ => rfl
  | w :: rest, brk => by
    simp [fresh_nodes, fresh_nodes_words rest (brk + 1)]

theorem fresh_nodes_length (L : List Word) (brk : Nat) :
    (fresh_nodes brk L).length = L.length := by
  have h := congrArg List.length (fresh_nodes_words L brk)
  simpa using h

theorem malloc_some (h : Heap) (hav : 0 < h.avail) :
    malloc h = some (h.brk + 1, ⟨h.brk + 1, h.avail - 1, h.freed⟩) := by
  unfold malloc
  rw [if_neg (by omega)]

theorem malloc_none (h : Heap) (hav : h.avail = 0) : malloc h = none := by
  unfold malloc
  rw [if_pos hav]

/-- What the loop of `load` does when every token fits the buffer and the
allocator can serve every token. -/
theorem load_loop_ok :
    ∀ (L : List Word) (s : State), (∀ w ∈ L, w.length ≤ LENGTH) →
      L.length ≤ s.heap.avail → s.word_count < UINT_RANGE →
      ∃ s1, load_loop L s = some (true, s1) ∧
        s1.heap = { brk := s.heap.brk + L.length, avail := s.heap.avail - L.length,
                    freed := s.heap.freed } ∧
        s1.word_count = (s.word_count + L.length) % UINT_RANGE ∧
        s1.table.length = s.table.length ∧
        (s.table.length = N → ∀ i, s1.table.getD i [] =
          bucket_of i (fresh_nodes s.heap.brk L) ++ s.table.getD i [])
  | [], s, _, _, hc => by
    refine ⟨s, rfl, ?_, ?_, rfl, ?_⟩
    · simp
    · simp [Nat.mod_eq_of_lt hc]
    · intro _ i; simp [fresh_nodes, bucket_of]
  | w :: rest, s, hlen, hav, hc => by
    have hw : ¬ LENGTH < w.length := Nat.not_lt.2 (hlen w (List.mem_cons_self _ _))
    simp only [List.length_cons] at hav
    have hm := malloc_some s.heap (by omega)
    obtain ⟨s1, hload, hheap, hcount, htl, htab⟩ :=
      load_loop_ok rest
        (link s ⟨s.heap.brk + 1, s.heap.avail - 1, s.heap.freed⟩ (s.heap.brk + 1) w)
        (fun v hv => hlen v (List.mem_cons_of_mem _ hv))
        (by simp only [link]; omega)
        (by simp only [link]; exact Nat.mod_lt _ (by decide))
    simp only [link, List.length_set] at hheap hcount htl htab
    refine ⟨s1, ?_, ?_, ?_, htl, ?_⟩
    · simp only [load_loop, hw, if_false, hm]
      exact hload
    · rw [hheap]
      simp only [List.length_cons, Heap.mk.injEq, and_true]
      constructor <;> omega
    · rw [hcount]
      simp only [List.length_cons, UINT_RANGE]
      omega
    · intro hN i
      rw [htab hN i]
      simp only [fresh_nodes, bucket_of_cons, getD_set]
      have hh : hash w < s.table.length := hN ▸ hash_lt w
      by_cases e : hash w = i
      · subst e
        simp [hh]
      · simp [e]

/-- What the loop of `load` does when the allocator gives out while the token
after `pre` is processed: it returns `false` and leaves the state that
loading `pre` alone leaves. -/
theorem load_loop_fail :
    ∀ (pre : List Word) (t : Word) (post : List Word) (s : State),
      (∀ w ∈ pre, w.length ≤ LENGTH) → t.length ≤ LENGTH →
      pre.length = s.heap.avail →
      ∃ s1, load_loop (pre ++ t :: post) s = some (false, s1) ∧
        load_loop pre s = some (true, s1)
  | [], t, post, s, _, ht, hav => by
    have hm := malloc_none s.heap (by simpa using hav.symm)
    refine ⟨s, ?_, rfl⟩
    simp only [List.nil_append, load_loop, Nat.not_lt.2 ht, if_false, hm]
  | w :: pre, t, post, s, hlen, ht, hav => by
    have hw : ¬ LENGTH < w.length := Nat.not_lt.2 (hlen w (List.mem_cons_self _ _))
    simp only [List.length_cons] at hav
    have hm := malloc_some s.heap (by omega)
    obtain ⟨s1, hfail, hok⟩ :=
      load_loop_fail pre t post
        (link s ⟨s.heap.brk + 1, s.heap.avail - 1, s.heap.freed⟩ (s.heap.brk + 1) w)
        (fun v hv => hlen v (List.mem_cons_of_mem _ hv)) ht
        (by simp only [link]; omega)
    refine ⟨s1, ?_, ?_⟩
    · simp only [List.cons_append, load_loop, hw, if_false, hm]
      exact hfail
    · simp only [load_loop, hw, if_false, hm]
      exact hok

theorem initial_wellFormed (avail : Nat) : wellFormed (initial avail) := by
  refine ⟨by simp [initial], by simp [initial, UINT_RANGE], ?_⟩
  intro p hp
  simp [initial] at hp

theorem exists_fresh_node (L : List Word) (brk : Nat) (w : Word) (hw : w ∈ L) :
    ∃ n ∈ fresh_nodes brk L, n.word = w := by
  rw [← fresh_nodes_words L brk] at hw
  obtain ⟨n, hn, e⟩ := List.mem_map.1 hw
  exact ⟨n, hn, e⟩

theorem fresh_node_word_mem (L : List Word) (brk : Nat) (n : node)
    (hn : n ∈ fresh_nodes brk L) : n.word ∈ L := by
  have h : n.word ∈ (fresh_nodes brk L).map node.word := List.mem_map.2 ⟨n, hn, rfl⟩
  rwa [fresh_nodes_words L brk] at h

/-- After a load that served every token of `L`, starting from a well-formed
state, `check` finds every word of `L`, in any letter case. -/
theorem check_after_load (L : List Word) (s s1 : State) (w v : Word)
    (hwf : wellFormed s)
    (hfreed : s1.heap.freed = s.heap.freed)
    (htab : ∀ i, s1.table.getD i [] =
      bucket_of i (fresh_nodes s.heap.brk L) ++ s.table.getD i [])
    (hw : w ∈ L) (hv : v.map tolower = w.map tolower) :
    check s1 v = some true := by
  unfold check
  rw [htab, hfreed]
  apply check_loop_found
  · intro n hn hfr
    have h1 := fresh_nodes_addr L s.heap.brk n ((mem_bucket_of _ _ _).1 hn).1
    have h2 := hwf.2.2 n.addr hfr
    omega
  · obtain ⟨n, hn, e⟩ := exists_fresh_node L s.heap.brk w hw
    refine ⟨n, (mem_bucket_of _ _ _).2 ⟨hn, ?_⟩, ?_⟩
    · rw [e]; exact (hash_congr w v hv).symm
    · rw [e]; exact strcasecmp_of_map_tolower v w hv

theorem flatten_length_set :
    ∀ (l : List (List node)) (h : Nat) (x : node), h < l.length →
      (l.set h (x :: l.getD h [])).flatten.length = l.flatten.length + 1
  | [], _, _, hl => by simp at hl
  | a :: l, 0, x, _ => by
    simp only [List.set_cons_zero, List.getD_cons_zero, List.flatten_cons, List.length_append,
      List.length_cons]
    omega
  | a :: l, h + 1, x, hl => by
    have ih := flatten_length_set l h x (by simpa using hl)
    simp only [List.set_cons_succ, List.getD_cons_succ, List.flatten_cons, List.length_append, ih]
    omega

/-- Whatever way the loop of `load` ends, the table has gained one entry per
block allocated. -/
theorem load_loop_entries :
    ∀ (L : List Word) (s : State) (b : Bool) (s1 : State),
      load_loop L s = some (b, s1) → s.table.length = N →
      (entries s1).length + s.heap.brk = (entries s).length + s1.heap.brk
  | [], s, b, s1, h, _ => by
    simp only [load_loop, Option.some.injEq, Prod.mk.injEq] at h
    rw [← h.2]
  | w :: rest, s, b, s1, h, hN => by
    simp only [load_loop] at h
    by_cases hw : LENGTH < w.length
    · simp [hw] at h
    · simp only [hw, if_false] at h
      by_cases hav : s.heap.avail = 0
      · rw [malloc_none s.heap hav] at h
        simp only [Option.some.injEq, Prod.mk.injEq] at h
        rw [← h.2]
      · rw [malloc_some s.heap (Nat.pos_of_ne_zero hav)] at h
        have ih := load_loop_entries rest _ b s1 h
          (by simp only [link, List.length_set]; exact hN)
        have hh : hash w < s.table.length := hN ▸ hash_lt w
        have hset := flatten_length_set s.table (hash w) ⟨s.heap.brk + 1, w⟩ hh
        simp only [entries, link] at ih hset ⊢
        omega

/-! ## Lemmas on `unload` -/

theorem free_ok (h : Heap) (p : Nat) (hp : p ∉ h.freed) :
    free h p = some ⟨h.brk, h.avail, h.freed ++ [p]⟩ := by
  unfold free
  rw [if_neg hp]

/-- On a chain without freed nodes, `unload_bucket` frees the last node and
no other. -/
theorem unload_bucket_ok :
    ∀ (chain : List node) (h : Heap), (∀ n ∈ chain, n.addr ∉ h.freed) →
      unload_bucket h chain = some ⟨h.brk, h.avail, h.freed ++ last_addr chain⟩
  | [], h, _ => by simp [unload_bucket, last_addr]
  | [n], h, hlive => by
    have hn : n.addr ∉ h.freed := hlive n (List.mem_cons_self _ _)
    simp only [unload_bucket, hn, if_false, free_ok h n.addr hn]
    simp [last_addr]
  | n :: m :: rest, h, hlive => by
    have hn : n.addr ∉ h.freed := hlive n (List.mem_cons_self _ _)
    have ih := unload_bucket_ok (m :: rest) h (fun k hk => hlive k (List.mem_cons_of_mem _ hk))
    simp only [unload_bucket, hn, if_false] at ih ⊢
    rw [ih]
    simp [last_addr, List.getLast?_cons_cons]

theorem last_addr_mem (chain : List node) (p : Nat) (hp : p ∈ last_addr chain) :
    ∃ n ∈ chain, n.addr = p := by
  unfold last_addr at hp
  cases hl : chain.getLast? with
  | none => simp [hl] at hp
  | some n =>
    simp only [hl, List.mem_singleton] at hp
    exact ⟨n, List.mem_of_getLast?_eq_some hl, hp.symm⟩

/-- The loop of `unload` over distinct indices, on chains without freed nodes
and without shared addresses: the last node of every chain is freed. -/
theorem unload_loop_ok (table : List (List node)) :
    ∀ (is : List Nat) (h : Heap), is.Nodup →
      (∀ i ∈ is, ∀ n ∈ table.getD i [], n.addr ∉ h.freed) →
      (∀ i ∈ is, ∀ j ∈ is, ∀ n ∈ table.getD i [], ∀ m ∈ table.getD j [],
        n.addr = m.addr → i = j) →
      unload_loop table is h = some ⟨h.brk, h.avail, h.freed ++ last_addrs table is⟩
  | [], h, _, _, _ => by simp [unload_loop, last_addrs]
  | i :: rest, h, hnd, hlive, hdis => by
    have hb := unload_bucket_ok (table.getD i []) h (hlive i (List.mem_cons_self _ _))
    have hnd1 := List.nodup_cons.1 hnd
    have ih := unload_loop_ok table rest
      ⟨h.brk, h.avail, h.freed ++ last_addr (table.getD i [])⟩ hnd1.2
      (by
        intro j hj n hn hfr
        rcases List.mem_append.1 hfr with h1 | h1
        · exact hlive j (List.mem_cons_of_mem _ hj) n hn h1
        · obtain ⟨m, hm, e⟩ := last_addr_mem _ _ h1
          have := hdis j (List.mem_cons_of_mem _ hj) i (List.mem_cons_self _ _) n hn m hm e.symm
          exact hnd1.1 (this ▸ hj))
      (fun a ha b hb1 => hdis a (List.mem_cons_of_mem _ ha) b (List.mem_cons_of_mem _ hb1))
    simp only [unload_loop, hb, ih, last_addrs, List.append_assoc]

/-- On an intact state `unload` returns true, frees the last node of every
chain and changes nothing else. -/
theorem unload_ok (s : State) (h : intact s) :
    unload s = some (true, { s with heap :=
      ⟨s.heap.brk, s.heap.avail, s.heap.freed ++ last_addrs s.table (List.range N)⟩ }) := by
  have hl := unload_loop_ok s.table (List.range N) s.heap (List.nodup_range N)
    (fun i hi => h.1 i (List.mem_range.1 hi))
    (fun i hi j hj => h.2 i (List.mem_range.1 hi) j (List.mem_range.1 hj))
  simp only [unload, hl]

theorem fresh_nodes_inj :
    ∀ (L : List Word) (brk : Nat), ∀ n ∈ fresh_nodes brk L, ∀ m ∈ fresh_nodes brk L,
      n.addr = m.addr → n = m
  | [], _, n, hn, _, _, _ => by simp [fresh_nodes] at hn
  | w :: rest, brk, n, hn, m, hm, e => by
    simp only [fresh_nodes, List.mem_cons] at hn hm
    rcases hn with hn | hn <;> rcases hm with hm | hm
    · rw [hn, hm]
    · have := fresh_nodes_addr rest (brk + 1) m hm
      rw [hn] at e
      simp only at e
      omega
    · have := fresh_nodes_addr rest (brk + 1) n hn
      rw [hm] at e
      simp only at e
      omega
    · exact fresh_nodes_inj rest (brk + 1) n hn m hm e

/-- Every state that a load into the initially empty table leaves is intact. -/
theorem intact_of_buckets (L : List Word) (s : State)
    (hfreed : s.heap.freed = [])
    (htab : ∀ i, s.table.getD i [] = bucket_of i (fresh_nodes 0 L)) : intact s := by
  constructor
  · intro i _ n _
    simp [hfreed]
  · intro i _ j _ n hn m hm e
    rw [htab] at hn hm
    have hn1 := (mem_bucket_of _ _ _).1 hn
    have hm1 := (mem_bucket_of _ _ _).1 hm
    have := fresh_nodes_inj L 0 n hn1.1 m hm1.1 e
    rw [← hn1.2, ← hm1.2, this]

/-- A load that serves every token of `L` into the initially empty table leaves
an intact state. -/
theorem load_intact (L : List Word) (avail : Nat)
    (hfit : ∀ w ∈ L, w.length ≤ LENGTH) (hav : L.length ≤ avail) :
    ∃ s, load (some L) (initial avail) = some (true, s) ∧ intact s := by
  obtain ⟨s1, hload, hheap, -, -, htab⟩ :=
    load_loop_ok L (initial avail) hfit hav (initial_wellFormed avail).2.1
  refine ⟨s1, hload, intact_of_buckets L s1 (by rw [hheap]; rfl) ?_⟩
  intro i
  rw [htab (initial_wellFormed avail).1 i]
  simp [initial, getD_replicate_nil]

/-! ## The invariant of `load` -/

theorem mem_entries (s : State) (n : node) :
    n ∈ entries s ↔ ∃ i, i < s.table.length ∧ n ∈ s.table.getD i [] := by
  unfold entries
  rw [List.mem_flatten]
  constructor
  · rintro ⟨c, hc, hn⟩
    obtain ⟨i, hi, e⟩ := List.getElem_of_mem hc
    refine ⟨i, hi, ?_⟩
    rw [List.getD_eq_getElem?_getD, List.getElem?_eq_getElem hi]
    simpa [e] using hn
  · rintro ⟨i, hi, hn⟩
    rw [List.getD_eq_getElem?_getD, List.getElem?_eq_getElem hi] at hn
    exact ⟨s.table[i], List.getElem_mem _, by simpa using hn⟩

theorem initial_inv (avail : Nat) : Inv (initial avail) := by
  refine ⟨by simp [initial], ?_, ?_, ?_, ?_, ?_, rfl⟩
  · intro i n hn; simp [initial, getD_replicate_nil] at hn
  · intro i n hn; simp [initial, getD_replicate_nil] at hn
  · intro i n hn; simp [initial, getD_replicate_nil] at hn
  · intro i j n hn; simp [initial, getD_replicate_nil] at hn
  · simp [initial, entries]

/-- One insertion keeps the invariant. -/
theorem link_inv (s : State) (w : Word) (h : Inv s) (hw : w.length ≤ LENGTH) :
    Inv (link s ⟨s.heap.brk + 1, s.heap.avail - 1, s.heap.freed⟩ (s.heap.brk + 1) w) := by
  have hh : hash w < s.table.length := h.heads ▸ hash_lt w
  have hmem : ∀ i (n : node),
      n ∈ (link s ⟨s.heap.brk + 1, s.heap.avail - 1, s.heap.freed⟩
        (s.heap.brk + 1) w).table.getD i [] →
      (n = ⟨s.heap.brk + 1, w⟩ ∧ i = hash w) ∨ n ∈ s.table.getD i [] := by
    intro i n hn
    simp only [link, getD_set] at hn
    by_cases e : hash w = i
    · simp only [e, true_and] at hn
      rw [if_pos (e ▸ hh)] at hn
      rcases List.mem_cons.1 hn with h1 | h1
      · exact Or.inl ⟨h1, e.symm⟩
      · exact Or.inr (e ▸ h1)
    · simp only [e, false_and, if_false] at hn
      exact Or.inr hn
  refine ⟨?_, ?_, ?_, ?_, ?_, ?_, ?_⟩
  · simp only [link, List.length_set]; exact h.heads
  · intro i n hn
    rcases hmem i n hn with ⟨e, ei⟩ | h1
    · rw [e, ei]
    · exact h.placed i n h1
  · intro i n hn
    rcases hmem i n hn with ⟨e, _⟩ | h1
    · rw [e]; exact hw
    · exact h.fits i n h1
  · intro i n hn
    rcases hmem i n hn with ⟨e, _⟩ | h1
    · rw [e]; exact Nat.le_refl _
    · exact Nat.le_succ_of_le (h.allocated i n h1)
  · intro i j n hn m hm e
    rcases hmem i n hn with ⟨en, ei⟩ | h1 <;> rcases hmem j m hm with ⟨em, ej⟩ | h2
    · rw [ei, ej]
    · have := h.allocated j m h2
      rw [en] at e
      simp only at e
      omega
    · have := h.allocated i n h1
      rw [em] at e
      simp only at e
      omega
    · exact h.apart i j n h1 m h2 e
  · have hset := flatten_length_set s.table (hash w) ⟨s.heap.brk + 1, w⟩ hh
    have hc := h.count
    simp only [entries, link, UINT_RANGE] at hset hc ⊢
    omega
  · exact h.unfreed

/-- However the loop of `load` ends, it keeps the invariant. -/
theorem load_loop_inv :
    ∀ (L : List Word) (s : State) (b : Bool) (s1 : State),
      Inv s → load_loop L s = some (b, s1) → Inv s1
  | [], s, b, s1, h, hl => by
    simp only [load_loop, Option.some.injEq, Prod.mk.injEq] at hl
    exact hl.2 ▸ h
  | w :: rest, s, b, s1, h, hl => by
    simp only [load_loop] at hl
    by_cases hw : LENGTH < w.length
    · simp [hw] at hl
    · simp only [hw, if_false] at hl
      by_cases hav : s.heap.avail = 0
      · rw [malloc_none s.heap hav] at hl
        simp only [Option.some.injEq, Prod.mk.injEq] at hl
        exact hl.2 ▸ h
      · rw [malloc_some s.heap (Nat.pos_of_ne_zero hav)] at hl
        exact load_loop_inv rest _ b s1 (link_inv s w h (Nat.le_of_not_lt hw)) hl

theorem reachable_inv (s : State) (h : Reachable s) : Inv s := by
  induction h with
  | start avail => exact initial_inv avail
  | step s dictionary b s1 _ hl ih =>
    cases dictionary with
    | none =>
      simp only [load, Option.some.injEq, Prod.mk.injEq] at hl
      exact hl.2 ▸ ih
    | some L => exact load_loop_inv L s b s1 ih hl

theorem inv_intact (s : State) (h : Inv s) : intact s := by
  refine ⟨?_, fun i _ j _ => h.apart i j⟩
  intro i _ n _
  simp [h.unfreed]

theorem inv_wellFormed (s : State) (h : Inv s) : wellFormed s := by
  refine ⟨h.heads, ?_, ?_⟩
  · rw [h.count]; exact Nat.mod_lt _ (by decide)
  · intro p hp; simp [h.unfreed] at hp

/-- The loop of `load` returns whenever every token fits the buffer. -/
theorem load_loop_total :
    ∀ (L : List Word) (s : State), (∀ w ∈ L, w.length ≤ LENGTH) →
      ∃ b s1, load_loop L s = some (b, s1)
  | [], s, _ => ⟨true, s, rfl⟩
  | w :: rest, s, hfit => by
    have hw : ¬ LENGTH < w.length := Nat.not_lt.2 (hfit w (List.mem_cons_self _ _))
    by_cases hav : s.heap.avail = 0
    · exact ⟨false, s, by simp only [load_loop, hw, if_false, malloc_none s.heap hav]⟩
    · obtain ⟨b, s1, h⟩ := load_loop_total rest
        (link s ⟨s.heap.brk + 1, s.heap.avail - 1, s.heap.freed⟩ (s.heap.brk + 1) w)
        (fun v hv => hfit v (List.mem_cons_of_mem _ hv))
      exact ⟨b, s1, by
        simp only [load_loop, hw, if_false, malloc_some s.heap (Nat.pos_of_ne_zero hav)]
        exact h⟩

theorem check_of_inv (s : State) (v : Word) (n : node) (h : Inv s)
    (hn : n ∈ s.table.getD (hash v) []) (hz : strcasecmp v n.word = 0) :
    check s v = some true := by
  unfold check
  have := check_loop_found s.heap.freed v (s.table.getD (hash v) []) []
    (fun m _ => by simp [h.unfreed]) ⟨n, hn, hz⟩
  simpa using this

theorem hash_loop_lt :
    ∀ (w : Word) (sum : Nat), sum < ULONG_RANGE → hash_loop sum w < ULONG_RANGE
  | [], _, h => h
  | _ :: rest, _, _ => hash_loop_lt rest _ (Nat.mod_lt _ (by decide))

/-- The accumulator of `hash` is the sum of what is added for each character,
modulo `2 ^ 64`. -/
theorem hash_loop_mod :
    ∀ (w : Word) (sum : Nat), sum < ULONG_RANGE →
      hash_loop sum w = (sum + (w.map hash_term).sum) % ULONG_RANGE
  | [], sum, h => by simp [hash_loop, Nat.mod_eq_of_lt h]
  | c :: rest, sum, _ => by
    rw [hash_loop, hash_loop_mod rest _ (Nat.mod_lt _ (by decide))]
    simp only [List.map_cons, List.sum_cons, Nat.mod_add_mod, Nat.add_assoc]

/-! ## The claims about `hash` -/

/-- C4: `hash` is a function of the word alone and ignores letter case: a word
and any word obtained from it by changing the case of some of its ASCII
letters have the same hash. -/
theorem hash_case_insensitive (w v : Word) (h : equalUpToCase w v = true) :
    hash v = hash w :=
  hash_congr w v (map_tolower_of_equalUpToCase w v h)

theorem hash_case_insensitive_witness :
    (equalUpToCase (str "cat") (str "CAT") = true ∧ hash (str "CAT") = hash (str "cat")) ∧
    (equalUpToCase (str "cat") (str "Cat") = true ∧ hash (str "Cat") = hash (str "cat")) :=
  ⟨⟨by decide, hash_case_insensitive (str "cat") (str "CAT") (by decide)⟩,
   ⟨by decide, hash_case_insensitive (str "cat") (str "Cat") (by decide)⟩⟩

/-- C5, as amended: on every word that does not hold the byte 255 and is
within the range of the loop index (every ASCII word, the empty word, and
every such word of at most `LENGTH` = 45 characters included) the
accumulator of `hash` is the exact sum of the lowercased character values,
without wrapping, and `hash` is that sum modulo `N` = 28. -/
theorem hash_eq_sum_mod (w : Word) (hchar : ∀ c ∈ w, c < 255)
    (hlen : w.length < INT_RANGE) :
    hash_loop 0 w = (w.map tolower).sum ∧
    (w.map tolower).sum < ULONG_RANGE ∧
    hash w = (w.map tolower).sum % 28 := by
  have hle := sum_tolower_le w hchar
  have hlt : (w.map tolower).sum < ULONG_RANGE := by
    unfold INT_RANGE at hlen
    unfold ULONG_RANGE
    omega
  have hex := hash_loop_exact w 0 hchar (by omega)
  simp only [Nat.zero_add] at hex
  exact ⟨hex, hlt, by simp [hash, hex, N]⟩

theorem hash_eq_sum_mod_witness :
    ((isAscii (str "Apple") ∧ (∀ c ∈ str "Apple", c < 255) ∧
        (str "Apple").length < INT_RANGE) ∧
      hash_loop 0 (str "Apple") = ((str "Apple").map tolower).sum ∧
      ((str "Apple").map tolower).sum < ULONG_RANGE ∧
      hash (str "Apple") = ((str "Apple").map tolower).sum % 28) ∧
    (((∀ c ∈ str "", c < 255) ∧ (str "").length < INT_RANGE) ∧
      hash_loop 0 (str "") = ((str "").map tolower).sum ∧
      ((str "").map tolower).sum < ULONG_RANGE ∧
      hash (str "") = ((str "").map tolower).sum % 28) ∧
    (((∀ c ∈ [99, 97, 102, 233], c < 255) ∧ [99, 97, 102, 233].length < INT_RANGE) ∧
      hash_loop 0 [99, 97, 102, 233] = ([99, 97, 102, 233].map tolower).sum ∧
      ([99, 97, 102, 233].map tolower).sum < ULONG_RANGE ∧
      hash [99, 97, 102, 233] = ([99, 97, 102, 233].map tolower).sum % 28) :=
  ⟨⟨⟨by decide, by decide, by decide⟩,
    hash_eq_sum_mod (str "Apple") (by decide) (by decide)⟩,
   ⟨⟨by decide, by decide⟩, hash_eq_sum_mod (str "") (by decide) (by decide)⟩,
   ⟨⟨by decide, by decide⟩, hash_eq_sum_mod [99, 97, 102, 233] (by decide) (by decide)⟩⟩

/-- C5 as stated fails on the one-character word whose byte is 255.  As a
signed `char` it is -1, `tolower(-1)` is -1, and adding it to the
`unsigned long` 0 wraps to `2 ^ 64 - 1`: `hash` returns 15, while the
lowercased character value 255 modulo 28 is 3.  With "a" in front the
accumulator wraps from 97 to 96. -/
theorem hash_eof_byte_wraps :
    [255].length ≤ LENGTH ∧
    ([255].map tolower).sum % 28 = 3 ∧
    hash_loop 0 [255] = 18446744073709551615 ∧
    hash [255] = 15 ∧
    hash [255] ≠ ([255].map tolower).sum % 28 ∧
    hash_loop 0 [97, 255] = 96 ∧
    hash_loop 0 [97, 255] ≠ ([97, 255].map tolower).sum := by
  decide

/-! ## The claims about `load`, `check` and `size` -/

/-- C1: after `load` has loaded the tokens `L` into the initially empty table,
`check` returns true for every word of `L` in any letter case: for `W` in `L`
and `W'` equal to `W` up to the case of its ASCII letters, `check(W')` is
true. -/
theorem check_loaded_any_case (L : List Word) (avail : Nat) (W W' : Word)
    (hfit : ∀ w ∈ L, w.length ≤ LENGTH) (hav : L.length ≤ avail)
    (hW : W ∈ L) (hcase : equalUpToCase W W' = true) :
    ∃ s, load (some L) (initial avail) = some (true, s) ∧ check s W' = some true := by
  obtain ⟨s1, hload, hheap, -, -, htab⟩ :=
    load_loop_ok L (initial avail) hfit hav (initial_wellFormed avail).2.1
  refine ⟨s1, hload, ?_⟩
  exact check_after_load L (initial avail) s1 W W' (initial_wellFormed avail)
    (by rw [hheap]) (htab (initial_wellFormed avail).1) hW
    (map_tolower_of_equalUpToCase W W' hcase)

theorem check_loaded_any_case_witness :
    (((∀ w ∈ [str "Apple"], w.length ≤ LENGTH) ∧ [str "Apple"].length ≤ 1 ∧
        str "Apple" ∈ [str "Apple"] ∧ equalUpToCase (str "Apple") (str "aPPLE") = true) ∧
      ∃ s, load (some [str "Apple"]) (initial 1) = some (true, s) ∧
        check s (str "aPPLE") = some true) ∧
    (((∀ w ∈ [str "apple", str "banana", str "cherry"], w.length ≤ LENGTH) ∧
        [str "apple", str "banana", str "cherry"].length ≤ 3 ∧
        str "apple" ∈ [str "apple", str "banana", str "cherry"] ∧
        equalUpToCase (str "apple") (str "APPLE") = true) ∧
      ∃ s, load (some [str "apple", str "banana", str "cherry"]) (initial 3) = some (true, s) ∧
        check s (str "APPLE") = some true) :=
  ⟨⟨⟨by decide, by decide, by decide, by decide⟩,
    check_loaded_any_case [str "Apple"] 1 (str "Apple") (str "aPPLE")
      (by decide) (by decide) (by decide) (by decide)⟩,
   ⟨⟨by decide, by decide, by decide, by decide⟩,
    check_loaded_any_case [str "apple", str "banana", str "cherry"] 3 (str "apple")
      (str "APPLE") (by decide) (by decide) (by decide) (by decide)⟩⟩

/-- C2: after `load` has loaded the tokens `L` into the initially empty table,
`check` returns false for every word `W` that no token of `L` equals up to
letter case, whichever bucket `W` hashes to (words are C strings: they hold
no NUL). -/
theorem check_never_loaded (L : List Word) (avail : Nat) (W : Word)
    (hfit : ∀ w ∈ L, w.length ≤ LENGTH) (hav : L.length ≤ avail)
    (hnul : ∀ w ∈ L, 0 ∉ w) (hW : 0 ∉ W)
    (hnever : ∀ w ∈ L, equalUpToCase w W = false) :
    ∃ s, load (some L) (initial avail) = some (true, s) ∧ check s W = some false := by
  obtain ⟨s1, hload, hheap, -, -, htab⟩ :=
    load_loop_ok L (initial avail) hfit hav (initial_wellFormed avail).2.1
  refine ⟨s1, hload, ?_⟩
  unfold check
  rw [htab (initial_wellFormed avail).1, hheap]
  simp only [initial, getD_replicate_nil, List.append_nil]
  apply check_loop_absent
  · intro n _ hfr
    simp at hfr
  · intro n hn h0
    have hmem : n.word ∈ L := fresh_node_word_mem L 0 n ((mem_bucket_of _ _ _).1 hn).1
    have hmap := map_tolower_of_strcasecmp W n.word hW (hnul _ hmem) h0
    have := equalUpToCase_of_map_tolower n.word W hmap
    rw [hnever _ hmem] at this
    exact Bool.false_ne_true this

theorem check_never_loaded_witness :
    (((∀ w ∈ [str "apple", str "banana", str "cherry"], w.length ≤ LENGTH) ∧
        [str "apple", str "banana", str "cherry"].length ≤ 3 ∧
        (∀ w ∈ [str "apple", str "banana", str "cherry"], 0 ∉ w) ∧
        0 ∉ str "grape" ∧
        (∀ w ∈ [str "apple", str "banana", str "cherry"],
          equalUpToCase w (str "grape") = false)) ∧
      ∃ s, load (some [str "apple", str "banana", str "cherry"]) (initial 3)
          = some (true, s) ∧
        check s (str "grape") = some false) ∧
    ((∀ w ∈ [str "apple", str "banana", str "cherry", str "cat"], w.length ≤ LENGTH) ∧
      [str "apple", str "banana", str "cherry", str "cat"].length ≤ 4 ∧
      (∀ w ∈ [str "apple", str "banana", str "cherry", str "cat"], 0 ∉ w) ∧
      0 ∉ str "act" ∧
      (∀ w ∈ [str "apple", str "banana", str "cherry", str "cat"],
        equalUpToCase w (str "act") = false) ∧
      hash (str "act") = hash (str "cat")) ∧
    ∃ s, load (some [str "apple", str "banana", str "cherry", str "cat"]) (initial 4)
        = some (true, s) ∧
      check s (str "act") = some false :=
  ⟨⟨⟨by decide, by decide, by decide, by decide, by decide⟩,
    check_never_loaded [str "apple", str "banana", str "cherry"] 3 (str "grape")
      (by decide) (by decide) (by decide) (by decide) (by decide)⟩,
   ⟨by decide, by decide, by decide, by decide, by decide, by decide⟩,
   check_never_loaded [str "apple", str "banana", str "cherry", str "cat"] 4 (str "act")
     (by decide) (by decide) (by decide) (by decide) (by decide)⟩

/-- C3, as amended: after `load` has loaded the `K` tokens of `L` into the
initially empty table, `size()` is `K` modulo `2 ^ 32` (`word_count` is an
`unsigned int`), hence exactly `K` whenever `K < 2 ^ 32`; tokens are counted
with their repetitions, the table holds one entry per token, and `check` of
every token is true. -/
theorem size_after_load (L : List Word) (avail : Nat)
    (hfit : ∀ w ∈ L, w.length ≤ LENGTH) (hav : L.length ≤ avail) :
    ∃ s, load (some L) (initial avail) = some (true, s) ∧
      size s = L.length % UINT_RANGE ∧
      (L.length < UINT_RANGE → size s = L.length) ∧
      (entries s).length = L.length ∧
      ∀ w ∈ L, check s w = some true := by
  obtain ⟨s1, hload, hheap, hcount, -, htab⟩ :=
    load_loop_ok L (initial avail) hfit hav (initial_wellFormed avail).2.1
  have hsize : size s1 = L.length % UINT_RANGE := by
    rw [size, hcount]
    simp [initial]
  refine ⟨s1, hload, hsize, ?_, ?_, ?_⟩
  · intro hlt
    rw [hsize, Nat.mod_eq_of_lt hlt]
  · have h := load_loop_entries L (initial avail) true s1 hload (initial_wellFormed avail).1
    rw [hheap] at h
    simpa [entries, initial] using h
  · intro w hw
    exact check_after_load L (initial avail) s1 w w (initial_wellFormed avail)
      (by rw [hheap]) (htab (initial_wellFormed avail).1) hw rfl

theorem size_after_load_witness :
    ((∀ w ∈ [str "apple", str "banana", str "apple"], w.length ≤ LENGTH) ∧
      [str "apple", str "banana", str "apple"].length ≤ 3) ∧
    ∃ s, load (some [str "apple", str "banana", str "apple"]) (initial 3) = some (true, s) ∧
      size s = [str "apple", str "banana", str "apple"].length % UINT_RANGE ∧
      ([str "apple", str "banana", str "apple"].length < UINT_RANGE →
        size s = [str "apple", str "banana", str "apple"].length) ∧
      (entries s).length = [str "apple", str "banana", str "apple"].length ∧
      ∀ w ∈ [str "apple", str "banana", str "apple"], check s w = some true :=
  ⟨⟨by decide, by decide⟩,
   size_after_load [str "apple", str "banana", str "apple"] 3 (by decide) (by decide)⟩

/-- C3 as stated fails: `load` serves the `2 ^ 32` tokens of a source that is
`2 ^ 32` times the word "a", and `size()` is then 0, not `2 ^ 32`. -/
theorem size_after_load_wraps :
    ∃ s, load (some (List.replicate 4294967296 (str "a"))) (initial 4294967296)
        = some (true, s) ∧
      size s = 0 ∧
      size s ≠ (List.replicate 4294967296 (str "a")).length := by
  have hfit : ∀ w ∈ List.replicate 4294967296 (str "a"), w.length ≤ LENGTH := by
    intro w hw
    rw [List.eq_of_mem_replicate hw]
    decide
  have hav : (List.replicate 4294967296 (str "a")).length ≤ (initial 4294967296).heap.avail := by
    rw [List.length_replicate]
    exact Nat.le_refl _
  obtain ⟨s1, hload, -, hcount, -, -⟩ :=
    load_loop_ok _ (initial 4294967296) hfit hav (initial_wellFormed _).2.1
  have h0 : size s1 = 0 := by
    rw [size, hcount, List.length_replicate]
    simp [initial, UINT_RANGE]
  refine ⟨s1, hload, h0, ?_⟩
  rw [h0, List.length_replicate]
  decide

/-- C6: loading a source without tokens into the initially empty table returns
true and leaves the table as it was: `size()` is 0 and `check` is false for
every string; `size()` is 0 before any load as well. -/
theorem load_empty_source (avail : Nat) :
    load (some []) (initial avail) = some (true, initial avail) ∧
    size (initial avail) = 0 ∧
    ∀ w : Word, check (initial avail) w = some false := by
  refine ⟨rfl, rfl, ?_⟩
  intro w
  simp only [check, initial, getD_replicate_nil, check_loop]

/-- C7: when the source cannot be opened, `load` returns false and the state
(every bucket, the count, the allocator) is the one before the call; on a
fresh table `size()` is 0 afterwards. -/
theorem load_unopenable (s : State) (avail : Nat) :
    load none s = some (false, s) ∧
    ∃ s1, load none (initial avail) = some (false, s1) ∧
      size s1 = 0 ∧ ∀ i < N, s1.table.getD i [] = [] := by
  refine ⟨rfl, initial avail, rfl, rfl, ?_⟩
  intro i _
  simp only [initial, getD_replicate_nil]

/-- C8, as amended: when `malloc` fails for token `j + 1` of the source (the
`j` tokens `pre` were served), `load` returns false and keeps what it did:
bucket `i` is the nodes of the words of `pre` that hash to `i`, latest
first, in front of the old chain; `size()` has grown by `j` modulo `2 ^ 32`,
by exactly `j` when that does not wrap; `check` is true for every word of
`pre`. -/
theorem load_alloc_failure (pre : List Word) (t : Word) (post : List Word) (s : State)
    (hwf : wellFormed s) (hfit : ∀ w ∈ pre, w.length ≤ LENGTH) (ht : t.length ≤ LENGTH)
    (hav : s.heap.avail = pre.length) :
    ∃ s1, load (some (pre ++ t :: post)) s = some (false, s1) ∧
      (∀ i < N, s1.table.getD i [] =
        bucket_of i (fresh_nodes s.heap.brk pre) ++ s.table.getD i []) ∧
      (∀ n ∈ fresh_nodes s.heap.brk pre, n ∈ s1.table.getD (hash n.word) []) ∧
      size s1 = (size s + pre.length) % UINT_RANGE ∧
      (size s + pre.length < UINT_RANGE → size s1 = size s + pre.length) ∧
      ∀ w ∈ pre, check s1 w = some true := by
  obtain ⟨s1, hfail, hok⟩ := load_loop_fail pre t post s hfit ht hav.symm
  obtain ⟨s2, hload, hheap, hcount, -, htab⟩ :=
    load_loop_ok pre s hfit (Nat.le_of_eq hav.symm) hwf.2.1
  have e : s1 = s2 := by
    rw [hok] at hload
    simpa using hload
  subst e
  refine ⟨s1, hfail, fun i _ => htab hwf.1 i, ?_, hcount, ?_, ?_⟩
  · intro n hn
    rw [htab hwf.1]
    exact List.mem_append_left _ ((mem_bucket_of _ _ _).2 ⟨hn, rfl⟩)
  · intro hlt
    rw [size, hcount]
    exact Nat.mod_eq_of_lt hlt
  · intro w hw
    exact check_after_load pre s s1 w w hwf (by rw [hheap]) (htab hwf.1) hw rfl

theorem load_alloc_failure_witness :
    (wellFormed (initial 2) ∧ (∀ w ∈ [str "apple", str "banana"], w.length ≤ LENGTH) ∧
      (str "cherry").length ≤ LENGTH ∧
      (initial 2).heap.avail = [str "apple", str "banana"].length) ∧
    ∃ s1, load (some ([str "apple", str "banana"] ++ str "cherry" :: [str "date"]))
        (initial 2) = some (false, s1) ∧
      (∀ i < N, s1.table.getD i [] =
        bucket_of i (fresh_nodes (initial 2).heap.brk [str "apple", str "banana"])
          ++ (initial 2).table.getD i []) ∧
      (∀ n ∈ fresh_nodes (initial 2).heap.brk [str "apple", str "banana"],
        n ∈ s1.table.getD (hash n.word) []) ∧
      size s1 = (size (initial 2) + [str "apple", str "banana"].length) % UINT_RANGE ∧
      (size (initial 2) + [str "apple", str "banana"].length < UINT_RANGE →
        size s1 = size (initial 2) + [str "apple", str "banana"].length) ∧
      ∀ w ∈ [str "apple", str "banana"], check s1 w = some true :=
  ⟨⟨by decide, by decide, by decide, by decide⟩,
   load_alloc_failure [str "apple", str "banana"] (str "cherry") [str "date"] (initial 2)
     (by decide) (by decide) (by decide) (by decide)⟩

/-- C8 as stated fails: with room for `2 ^ 32` nodes and a source of
`2 ^ 32 + 1` tokens "a", `load` fails at the last token after `2 ^ 32`
insertions, and `size()` is 0 as before: it has not grown by `2 ^ 32`. -/
theorem load_alloc_failure_wraps :
    ∃ s1, load (some (List.replicate 4294967296 (str "a") ++ str "a" :: []))
        (initial 4294967296) = some (false, s1) ∧
      size s1 = 0 ∧
      size s1 ≠ size (initial 4294967296) + 4294967296 := by
  have hfit : ∀ w ∈ List.replicate 4294967296 (str "a"), w.length ≤ LENGTH := by
    intro w hw
    rw [List.eq_of_mem_replicate hw]
    decide
  have hav : (List.replicate 4294967296 (str "a")).length = (initial 4294967296).heap.avail := by
    rw [List.length_replicate]
    rfl
  obtain ⟨s1, hfail, hok⟩ :=
    load_loop_fail _ (str "a") [] (initial 4294967296) hfit (by decide) hav
  obtain ⟨s2, hload, -, hcount, -, -⟩ :=
    load_loop_ok _ (initial 4294967296) hfit (Nat.le_of_eq hav) (initial_wellFormed _).2.1
  have e : s1 = s2 := by
    rw [hok] at hload
    simpa using hload
  subst e
  have h0 : size s1 = 0 := by
    rw [size, hcount, List.length_replicate]
    simp [initial, UINT_RANGE]
  refine ⟨s1, hfail, h0, ?_⟩
  rw [h0]
  simp [size, initial]

/-! ## The claims about `unload` -/

/-- C9 at a failing input: "cat" and "act" are loaded into one bucket, whose
chain is then the node at 2 followed by the node at 1; `unload` frees the
node at 1 only, and the node at 2 is never freed. -/
theorem unload_frees_last_node_only :
    ∃ s s1, load (some [str "cat", str "act"]) (initial 2) = some (true, s) ∧
      unload s = some (true, s1) ∧
      (entries s).map node.addr = [2, 1] ∧
      s1.heap.freed = [1] ∧
      2 ∉ s1.heap.freed :=
  ⟨_, _, rfl, rfl, by decide, by decide, by decide⟩

/-- C10, as amended: `unload` assigns no bucket head.  On every intact state
(no node of the table freed yet, no node in two chains) it returns true and,
for every index `i < N`, `table[i]` is afterwards what it was before; so a
head is empty afterwards exactly when it was empty before. -/
theorem unload_keeps_heads (s : State) (h : intact s) :
    ∃ s1, unload s = some (true, s1) ∧
      (∀ i < N, s1.table.getD i [] = s.table.getD i []) ∧
      (∀ i < N, s1.table.getD i [] = [] ↔ s.table.getD i [] = []) :=
  ⟨_, unload_ok s h, fun _ _ => rfl, fun _ _ => Iff.rfl⟩

theorem unload_keeps_heads_witness :
    intact (link (initial 1) ⟨1, 0, []⟩ 1 (str "a")) ∧
    ∃ s1, unload (link (initial 1) ⟨1, 0, []⟩ 1 (str "a")) = some (true, s1) ∧
      (∀ i < N, s1.table.getD i [] =
        (link (initial 1) ⟨1, 0, []⟩ 1 (str "a")).table.getD i []) ∧
      (∀ i < N, s1.table.getD i [] = [] ↔
        (link (initial 1) ⟨1, 0, []⟩ 1 (str "a")).table.getD i [] = []) :=
  ⟨by decide, unload_keeps_heads (link (initial 1) ⟨1, 0, []⟩ 1 (str "a")) (by decide)⟩

/-- C10 as stated fails: after "a" is loaded and `unload` has returned, the
head of the bucket of "a" is still the node of "a", not the empty chain. -/
theorem unload_leaves_head :
    ∃ s s1, load (some [str "a"]) (initial 1) = some (true, s) ∧
      unload s = some (true, s1) ∧
      hash (str "a") < N ∧
      s1.table.getD (hash (str "a")) [] = [{ addr := 1, word := str "a" }] ∧
      s1.table.getD (hash (str "a")) [] ≠ [] :=
  ⟨_, _, rfl, rfl, by decide, by decide, by decide⟩

/-- C11: `unload` leaves the running count alone.  Whenever `unload` returns,
`size()` is afterwards what it was before; and on every intact state (no
node of the table freed yet, no node in two chains) `unload` does return,
with `size()` unchanged. -/
theorem unload_keeps_count (s : State) :
    (∀ b s1, unload s = some (b, s1) → size s1 = size s) ∧
    (intact s → ∃ s1, unload s = some (true, s1) ∧ size s1 = size s) := by
  constructor
  · intro b s1 h
    unfold unload at h
    cases hl : unload_loop s.table (List.range N) s.heap with
    | none => simp [hl] at h
    | some h1 =>
      simp only [hl, Option.some.injEq, Prod.mk.injEq] at h
      rw [← h.2]
      rfl
  · intro hi
    exact ⟨_, unload_ok s hi, rfl⟩

theorem unload_keeps_count_witness :
    ∃ s, load (some [str "apple", str "banana"]) (initial 2) = some (true, s) ∧
      intact s ∧
      ∃ s1, unload s = some (true, s1) ∧ size s1 = size s ∧ size s1 = 2 :=
  ⟨_, rfl, by decide,
    ((unload_keeps_count _).2 (by decide)).elim
      (fun s1 h => ⟨s1, h.1, h.2, h.2.trans (by decide)⟩)⟩

/-- C12, as amended: `unload` has no failure path of its own.  In every state
reached by calls of `load` alone (the empty table, a loaded table, a table
partly loaded by a load that failed) `unload` returns true. -/
theorem unload_returns_true (s : State) (h : Reachable s) :
    ∃ s1, unload s = some (true, s1) :=
  ⟨_, unload_ok s (inv_intact s (reachable_inv s h))⟩

theorem unload_returns_true_witness :
    (Reachable (initial 0) ∧ ∃ s1, unload (initial 0) = some (true, s1)) ∧
    ∃ s, load (some [str "apple", str "banana", str "cherry"]) (initial 2) = some (false, s) ∧
      Reachable s ∧ ∃ s1, unload s = some (true, s1) :=
  ⟨⟨Reachable.start 0, unload_returns_true (initial 0) (Reachable.start 0)⟩,
   ⟨_, rfl,
    Reachable.step _ (some [str "apple", str "banana", str "cherry"]) false _
      (Reachable.start 2) rfl,
    unload_returns_true _
      (Reachable.step _ (some [str "apple", str "banana", str "cherry"]) false _
        (Reachable.start 2) rfl)⟩⟩

/-- C12 as stated fails on a table that was unloaded already: after "a" is
loaded and `unload` has freed its node, the head of its bucket still points
at that node, and a second `unload` reads `ptr->next` of the freed node and
frees it again; it has no defined result. -/
theorem unload_twice_undefined :
    ∃ s s1, load (some [str "a"]) (initial 1) = some (true, s) ∧
      unload s = some (true, s1) ∧
      s1.table.getD (hash (str "a")) [] = [{ addr := 1, word := str "a" }] ∧
      1 ∈ s1.heap.freed ∧
      unload s1 = none ∧
      ¬ ∃ s2, unload s1 = some (true, s2) := by
  have key : ∃ s s1, load (some [str "a"]) (initial 1) = some (true, s) ∧
      unload s = some (true, s1) ∧
      s1.table.getD (hash (str "a")) [] = [{ addr := 1, word := str "a" }] ∧
      1 ∈ s1.heap.freed ∧
      unload s1 = none :=
    ⟨_, _, rfl, rfl, by decide, by decide, by decide⟩
  obtain ⟨s, s1, h1, h2, h3, h4, h5⟩ := key
  refine ⟨s, s1, h1, h2, h3, h4, h5, ?_⟩
  rintro ⟨s2, h⟩
  rw [h5] at h
  cases h

/-! ## The invariants of the table -/

/-- C14: in every state reached from the empty table by calls of `load`,
whatever they returned, every entry of `table[i]` (`i < N`) holds a word
whose hash is `i`; and every entry of the table is in the bucket of its
word. -/
theorem buckets_placed (s : State) (h : Reachable s) :
    (∀ i < N, ∀ n ∈ s.table.getD i [], hash n.word = i) ∧
    (∀ n ∈ entries s, n ∈ s.table.getD (hash n.word) []) := by
  have hinv := reachable_inv s h
  refine ⟨fun i _ n hn => hinv.placed i n hn, ?_⟩
  intro n hn
  obtain ⟨i, _, hi⟩ := (mem_entries s n).1 hn
  rw [hinv.placed i n hi]
  exact hi

theorem buckets_placed_witness :
    ∃ s, load (some [str "apple", str "banana", str "cherry"]) (initial 2) = some (false, s) ∧
      Reachable s ∧
      (∀ i < N, ∀ n ∈ s.table.getD i [], hash n.word = i) ∧
      (∀ n ∈ entries s, n ∈ s.table.getD (hash n.word) []) :=
  ⟨_, rfl,
    Reachable.step _ (some [str "apple", str "banana", str "cherry"]) false _
      (Reachable.start 2) rfl,
    buckets_placed _
      (Reachable.step _ (some [str "apple", str "banana", str "cherry"]) false _
        (Reachable.start 2) rfl)⟩

/-- C15, as amended: in every state reached from the empty table by calls of
`load`, whatever they returned, `size()` is the number of entries of the
`N` chains modulo `2 ^ 32`; it is that number itself as long as there are
fewer than `2 ^ 32` entries. -/
theorem size_counts_entries (s : State) (h : Reachable s) :
    size s = (entries s).length % UINT_RANGE ∧
    ((entries s).length < UINT_RANGE → size s = (entries s).length) := by
  have hc := (reachable_inv s h).count
  refine ⟨hc, fun hlt => ?_⟩
  rw [size, hc, Nat.mod_eq_of_lt hlt]

theorem size_counts_entries_witness :
    ∃ s, load (some [str "apple", str "banana", str "cherry"]) (initial 2) = some (false, s) ∧
      Reachable s ∧
      size s = (entries s).length % UINT_RANGE ∧
      ((entries s).length < UINT_RANGE → size s = (entries s).length) :=
  ⟨_, rfl,
    Reachable.step _ (some [str "apple", str "banana", str "cherry"]) false _
      (Reachable.start 2) rfl,
    size_counts_entries _
      (Reachable.step _ (some [str "apple", str "banana", str "cherry"]) false _
        (Reachable.start 2) rfl)⟩

/-- C15 as stated fails: after one `load` of a source that is `2 ^ 32` times
the word "a" the chains hold `2 ^ 32` entries and `size()` is 0. -/
theorem size_counts_entries_wraps :
    ∃ s, Reachable s ∧ (entries s).length = 4294967296 ∧ size s = 0 ∧
      size s ≠ (entries s).length := by
  have hfit : ∀ w ∈ List.replicate 4294967296 (str "a"), w.length ≤ LENGTH := by
    intro w hw
    rw [List.eq_of_mem_replicate hw]
    decide
  have hav : (List.replicate 4294967296 (str "a")).length ≤ (initial 4294967296).heap.avail := by
    rw [List.length_replicate]
    exact Nat.le_refl _
  obtain ⟨s1, hload, hheap, hcount, -, -⟩ :=
    load_loop_ok _ (initial 4294967296) hfit hav (initial_wellFormed _).2.1
  have hreach : Reachable s1 :=
    Reachable.step _ (some (List.replicate 4294967296 (str "a"))) true s1
      (Reachable.start 4294967296) hload
  have hent : (entries s1).length = 4294967296 := by
    have h := load_loop_entries _ (initial 4294967296) true s1 hload (initial_wellFormed _).1
    rw [hheap, List.length_replicate] at h
    simpa [entries, initial] using h
  have h0 : size s1 = 0 := by
    rw [size, hcount, List.length_replicate]
    simp [initial, UINT_RANGE]
  refine ⟨s1, hreach, hent, h0, ?_⟩
  rw [h0, hent]
  decide

/-- C17: `hash` is defined on every string and its value is a bucket index:
`hash(w) < N = 28`.  In every state whose table has its `N` heads the
element `table[hash(w)]` that `check` and `load` use therefore exists. -/
theorem hash_in_range :
    N = 28 ∧ (∀ w : Word, hash w < 28) ∧
    (∀ (w : Word) (s : State), s.table.length = N →
      hash w < s.table.length ∧
      s.table[hash w]? = some (s.table.getD (hash w) [])) ∧
    (∀ s, Reachable s → s.table.length = N) := by
  refine ⟨rfl, fun w => Nat.mod_lt _ (by decide), ?_, fun s h => (reachable_inv s h).heads⟩
  intro w s hN
  have hh : hash w < s.table.length := hN ▸ Nat.mod_lt _ (by decide)
  refine ⟨hh, ?_⟩
  rw [List.getD_eq_getElem?_getD, List.getElem?_eq_getElem hh]
  rfl

/-- C18, as amended: in a state reached by calls of `load`, a further `load`
of tokens none of which is longer than `LENGTH` returns, and no entry of the
table then holds a word longer than `LENGTH` (45 characters). -/
theorem entries_fit (s : State) (L : List Word) (h : Reachable s)
    (hfit : ∀ w ∈ L, w.length ≤ LENGTH) :
    ∃ b s1, load (some L) s = some (b, s1) ∧
      ∀ n ∈ entries s1, n.word.length ≤ LENGTH := by
  obtain ⟨b, s1, hl⟩ := load_loop_total L s hfit
  refine ⟨b, s1, hl, ?_⟩
  have hinv := load_loop_inv L s b s1 (reachable_inv s h) hl
  intro n hn
  obtain ⟨i, _, hi⟩ := (mem_entries s1 n).1 hn
  exact hinv.fits i n hi

theorem entries_fit_witness :
    (Reachable (initial 2) ∧
      ∀ w ∈ [str "apple", str "pneumonoultramicroscopicsilicovolcanoconiosis"],
        w.length ≤ LENGTH) ∧
    ∃ b s1, load (some [str "apple", str "pneumonoultramicroscopicsilicovolcanoconiosis"])
        (initial 2) = some (b, s1) ∧
      ∀ n ∈ entries s1, n.word.length ≤ LENGTH :=
  ⟨⟨Reachable.start 2, by decide⟩,
   entries_fit (initial 2) [str "apple", str "pneumonoultramicroscopicsilicovolcanoconiosis"]
     (Reachable.start 2) (by decide)⟩

/-- C18 as stated fails for a token of 46 characters: `fscanf` writes it and
its NUL past the end of `word[LENGTH + 1]`, and `load` has no defined
result, so nothing is known of the entries afterwards. -/
theorem load_oversized_undefined :
    (List.replicate 46 97).length = LENGTH + 1 ∧
    load (some [List.replicate 46 97]) (initial 1) = none ∧
    ¬ ∃ b s1, load (some [List.replicate 46 97]) (initial 1) = some (b, s1) := by
  have h : load (some [List.replicate 46 97]) (initial 1) = none := by decide
  refine ⟨by decide, h, ?_⟩
  rintro ⟨b, s1, h1⟩
  rw [h] at h1
  cases h1

/-- C19: `hash` ignores the order of the characters: a word and any
permutation of its characters (an anagram) have the same hash, so they
belong to the same bucket. -/
theorem hash_anagram (w v : Word) (h : List.Perm w v) : hash v = hash w := by
  unfold hash
  rw [hash_loop_mod w 0 (by decide), hash_loop_mod v 0 (by decide),
    (h.map hash_term).sum_eq]

theorem hash_anagram_witness :
    List.Perm (str "listen") (str "silent") ∧ hash (str "silent") = hash (str "listen") :=
  ⟨by decide, hash_anagram (str "listen") (str "silent") (by decide)⟩

/-! ## Loading again, and one step of `load` -/

/-- C13, as amended: a second `load` without an `unload` in between adds to
the table.  After `load(A)` and `load(B)` have both succeeded from the
initially empty table, `size()` is `|A| + |B|` modulo `2 ^ 32` (exactly
`|A| + |B|` below `2 ^ 32`), the table holds `|A| + |B|` entries, every
bucket is the new nodes of `B` in front of the chain that `load(A)` left,
and `check` is true for every word of `A` and of `B`. -/
theorem load_twice (A B : List Word) (avail : Nat)
    (hA : ∀ w ∈ A, w.length ≤ LENGTH) (hB : ∀ w ∈ B, w.length ≤ LENGTH)
    (hav : A.length + B.length ≤ avail) :
    ∃ s1 s2, load (some A) (initial avail) = some (true, s1) ∧
      load (some B) s1 = some (true, s2) ∧
      size s2 = (A.length + B.length) % UINT_RANGE ∧
      (A.length + B.length < UINT_RANGE → size s2 = A.length + B.length) ∧
      (entries s2).length = A.length + B.length ∧
      (∀ i < N, s2.table.getD i [] =
        bucket_of i (fresh_nodes A.length B) ++ s1.table.getD i []) ∧
      (∀ i < N, ∀ n ∈ s1.table.getD i [], n ∈ s2.table.getD i []) ∧
      (∀ w ∈ A, check s2 w = some true) ∧
      (∀ w ∈ B, check s2 w = some true) := by
  obtain ⟨s1, hl1, hheap1, hcount1, hlen1, htab1⟩ :=
    load_loop_ok A (initial avail) hA (by simp only [initial]; omega)
      (initial_wellFormed avail).2.1
  have hN1 : s1.table.length = N := hlen1.trans (initial_wellFormed avail).1
  have hinv1 : Inv s1 := load_loop_inv A _ true s1 (initial_inv avail) hl1
  have hbrk1 : s1.heap.brk = A.length := by rw [hheap1]; simp [initial]
  obtain ⟨s2, hl2, hheap2, hcount2, -, htab2⟩ :=
    load_loop_ok B s1 hB (by rw [hheap1]; simp only [initial]; omega)
      (inv_wellFormed s1 hinv1).2.1
  have hinv2 : Inv s2 := load_loop_inv B _ true s2 hinv1 hl2
  have hsize : size s2 = (A.length + B.length) % UINT_RANGE := by
    rw [size, hcount2, hcount1]
    simp only [initial, UINT_RANGE]
    omega
  rw [hbrk1] at htab2
  refine ⟨s1, s2, hl1, hl2, hsize, ?_, ?_, fun i _ => htab2 hN1 i, ?_, ?_, ?_⟩
  · intro hlt
    rw [hsize, Nat.mod_eq_of_lt hlt]
  · have e1 := load_loop_entries A (initial avail) true s1 hl1 (initial_wellFormed avail).1
    have e2 := load_loop_entries B s1 true s2 hl2 hN1
    rw [hheap2, hheap1] at e2
    rw [hheap1] at e1
    simp only [entries, initial, List.flatten_replicate_nil, List.length_nil] at e1 e2 ⊢
    omega
  · intro i _ n hn
    rw [htab2 hN1 i]
    exact List.mem_append_right _ hn
  · intro w hw
    obtain ⟨n, hn, e⟩ := exists_fresh_node A (initial avail).heap.brk w hw
    have hn1 : n ∈ s1.table.getD (hash w) [] := by
      rw [htab1 (initial_wellFormed avail).1]
      exact List.mem_append_left _ ((mem_bucket_of _ _ _).2 ⟨hn, by rw [e]⟩)
    have hn2 : n ∈ s2.table.getD (hash w) [] := by
      rw [htab2 hN1]
      exact List.mem_append_right _ hn1
    exact check_of_inv s2 w n hinv2 hn2 (by rw [e]; exact strcasecmp_of_map_tolower w w rfl)
  · intro w hw
    have ht : ∀ i, s2.table.getD i [] =
        bucket_of i (fresh_nodes s1.heap.brk B) ++ s1.table.getD i [] := by
      intro i
      rw [hbrk1]
      exact htab2 hN1 i
    exact check_after_load B s1 s2 w w (inv_wellFormed s1 hinv1) (by rw [hheap2]) ht hw rfl

theorem load_twice_witness :
    ((∀ w ∈ [str "apple", str "banana"], w.length ≤ LENGTH) ∧
      (∀ w ∈ [str "apple", str "banana"], w.length ≤ LENGTH) ∧
      [str "apple", str "banana"].length + [str "apple", str "banana"].length ≤ 4) ∧
    ∃ s1 s2, load (some [str "apple", str "banana"]) (initial 4) = some (true, s1) ∧
      load (some [str "apple", str "banana"]) s1 = some (true, s2) ∧
      size s2 = ([str "apple", str "banana"].length + [str "apple", str "banana"].length)
        % UINT_RANGE ∧
      ([str "apple", str "banana"].length + [str "apple", str "banana"].length < UINT_RANGE →
        size s2 = [str "apple", str "banana"].length + [str "apple", str "banana"].length) ∧
      (entries s2).length =
        [str "apple", str "banana"].length + [str "apple", str "banana"].length ∧
      (∀ i < N, s2.table.getD i [] =
        bucket_of i (fresh_nodes [str "apple", str "banana"].length [str "apple", str "banana"])
          ++ s1.table.getD i []) ∧
      (∀ i < N, ∀ n ∈ s1.table.getD i [], n ∈ s2.table.getD i []) ∧
      (∀ w ∈ [str "apple", str "banana"], check s2 w = some true) ∧
      (∀ w ∈ [str "apple", str "banana"], check s2 w = some true) :=
  ⟨⟨by decide, by decide, by decide⟩,
   load_twice [str "apple", str "banana"] [str "apple", str "banana"] 4
     (by decide) (by decide) (by decide)⟩

/-- C13 as stated fails: a source that is `2 ^ 31` times the word "a" is
loaded twice; both loads succeed and `size()` is then 0, not `2 ^ 32`. -/
theorem load_twice_wraps :
    ∃ s1 s2, load (some (List.replicate 2147483648 (str "a"))) (initial 4294967296)
        = some (true, s1) ∧
      load (some (List.replicate 2147483648 (str "a"))) s1 = some (true, s2) ∧
      size s1 = 2147483648 ∧
      size s2 = 0 ∧
      size s2 ≠ (List.replicate 2147483648 (str "a")).length +
        (List.replicate 2147483648 (str "a")).length := by
  have hfit : ∀ w ∈ List.replicate 2147483648 (str "a"), w.length ≤ LENGTH := by
    intro w hw
    rw [List.eq_of_mem_replicate hw]
    decide
  obtain ⟨s1, hl1, hheap1, hcount1, -, -⟩ :=
    load_loop_ok _ (initial 4294967296) hfit
      (by rw [List.length_replicate]; simp [initial]) (initial_wellFormed _).2.1
  have hc1 : s1.word_count = 2147483648 := by
    rw [hcount1, List.length_replicate]
    simp [initial, UINT_RANGE]
  obtain ⟨s2, hl2, -, hcount2, -, -⟩ :=
    load_loop_ok _ s1 hfit
      (by rw [hheap1, List.length_replicate]; simp [initial])
      (by rw [hc1]; decide)
  have hc2 : size s2 = 0 := by
    rw [size, hcount2, hc1, List.length_replicate]
    simp [UINT_RANGE]
  refine ⟨s1, s2, hl1, hl2, hc1, hc2, ?_⟩
  rw [hc2, List.length_replicate]
  decide

/-- C16, as amended: one step of `load`, for a token `w` that fits the buffer
and a node that `malloc` grants, prepends to one bucket: `table[hash(w)]`
becomes the new node, holding `w` character for character, followed by the
chain that was there; every other bucket is what it was; the count goes up
by 1 as an `unsigned int` (by exactly 1 unless it was `2 ^ 32 - 1`, which
becomes 0). -/
theorem load_step_prepends (s : State) (w : Word)
    (hN : s.table.length = N) (hfit : w.length ≤ LENGTH) (hav : 0 < s.heap.avail) :
    ∃ s1, load (some [w]) s = some (true, s1) ∧
      s1.table.getD (hash w) [] =
        { addr := s.heap.brk + 1, word := w } :: s.table.getD (hash w) [] ∧
      (∀ i, i ≠ hash w → s1.table.getD i [] = s.table.getD i []) ∧
      s1.table.length = s.table.length ∧
      size s1 = (size s + 1) % UINT_RANGE ∧
      (size s + 1 < UINT_RANGE → size s1 = size s + 1) := by
  have hh : hash w < s.table.length := hN ▸ hash_lt w
  refine ⟨link s ⟨s.heap.brk + 1, s.heap.avail - 1, s.heap.freed⟩ (s.heap.brk + 1) w,
    ?_, ?_, ?_, ?_, rfl, ?_⟩
  · simp only [load, load_loop, Nat.not_lt.2 hfit, if_false, malloc_some s.heap hav]
  · simp only [link, getD_set, hh, and_self, if_true]
  · intro i hi
    simp only [link, getD_set]
    rw [if_neg (fun e => hi e.1.symm)]
  · simp only [link, List.length_set]
  · intro hlt
    simp only [size, link]
    exact Nat.mod_eq_of_lt hlt

theorem load_step_prepends_witness :
    ∃ s, load (some [str "cat"]) (initial 2) = some (true, s) ∧
      (s.table.length = N ∧ (str "act").length ≤ LENGTH ∧ 0 < s.heap.avail) ∧
      ∃ s1, load (some [str "act"]) s = some (true, s1) ∧
        s1.table.getD (hash (str "act")) [] =
          { addr := s.heap.brk + 1, word := str "act" } :: s.table.getD (hash (str "act")) [] ∧
        (∀ i, i ≠ hash (str "act") → s1.table.getD i [] = s.table.getD i []) ∧
        s1.table.length = s.table.length ∧
        size s1 = (size s + 1) % UINT_RANGE ∧
        (size s + 1 < UINT_RANGE → size s1 = size s + 1) :=
  ⟨_, rfl, ⟨by decide, by decide, by decide⟩,
    load_step_prepends _ (str "act") (by decide) (by decide) (by decide)⟩

/-- C16 as stated fails for the count: after `2 ^ 32 - 1` tokens have been
loaded `size()` is `2 ^ 32 - 1`, and the step for one more token makes it 0,
not `2 ^ 32`. -/
theorem load_step_wraps :
    ∃ s s1, load (some (List.replicate 4294967295 (str "a"))) (initial 4294967296)
        = some (true, s) ∧
      load (some [str "a"]) s = some (true, s1) ∧
      size s = 4294967295 ∧
      size s1 = 0 ∧
      size s1 ≠ size s + 1 := by
  have hfit : ∀ w ∈ List.replicate 4294967295 (str "a"), w.length ≤ LENGTH := by
    intro w hw
    rw [List.eq_of_mem_replicate hw]
    decide
  obtain ⟨s, hl, hheap, hcount, -, -⟩ :=
    load_loop_ok _ (initial 4294967296) hfit
      (by rw [List.length_replicate]; simp [initial]) (initial_wellFormed _).2.1
  have hc : s.word_count = 4294967295 := by
    rw [hcount, List.length_replicate]
    simp [initial, UINT_RANGE]
  obtain ⟨s1, hl1, -, hcount1, -, -⟩ :=
    load_loop_ok [str "a"] s (by decide)
      (by rw [hheap, List.length_replicate]; simp [initial])
      (by rw [hc]; decide)
  have hc1 : size s1 = 0 := by
    rw [size, hcount1, hc]
    simp [UINT_RANGE]
  refine ⟨s, s1, hl, hl1, hc, hc1, ?_⟩
  rw [hc1, size, hc]
  decide

end Speller
